import Mathlib

/-!
Verification of the document normalization / anchor-addressing / citation
pipeline and the audio decode pipeline of the document-QA application.

The TypeScript source is shallowly embedded: external decoder capabilities
(pdf.js page text, XLSX sheets, JSZip entries with their XML text nodes,
mammoth raw text, the OCR engine, FileReader results) are modelled as the
data they deliver; the pure computations performed on that data (format
classification, unit-header emission, header scanning, citation scanning,
PCM decoding, base64 decoding, playback-slot state updates) are embedded as
executable Lean functions.
-/

namespace DocPipe

/-! ## Characters and decimal numerals

JavaScript template literals render the 1-based unit counter with its
decimal representation; the citation and header regexes read it back with
the digit class. -/

def isDigitChar (c : Char) : Bool :=
  48 ≤ c.toNat && c.toNat ≤ 57

def digitVal (c : Char) : Nat := c.toNat - 48

def digitChar (d : Nat) : Char :=
  match d with
  | 0 => '0' | 1 => '1' | 2 => '2' | 3 => '3' | 4 => '4'
  | 5 => '5' | 6 => '6' | 7 => '7' | 8 => '8' | _ => '9'

/-- Decimal digits of `n`, most significant first, accumulated onto `acc`.
The first argument is recursion fuel; every call keeps `n ≤ fuel`, so the
fuel-exhausted branch is only reached with `n < 10`. -/
def toDecGo : Nat → Nat → List Char → List Char
  | 0, n, acc => digitChar n :: acc
  | f + 1, n, acc =>
    if n < 10 then digitChar n :: acc
    else toDecGo f (n / 10) (digitChar (n % 10) :: acc)

def toDec (n : Nat) : List Char := toDecGo n n []

/-- Decimal rendering of a natural number, as produced by `${i}` in a
JavaScript template literal. -/
def natToStr (n : Nat) : String := String.mk (toDec n)

/-- Value of a digit string, as computed by a left-to-right decimal read. -/
def digitsVal (ds : List Char) : Nat := ds.foldl (fun a c => a * 10 + digitVal c) 0

/-! ## Plain string utilities shared by the embedding -/

/-- Strips `p` from the front of `cs`, returning the remainder; `none` when
`p` is not literally there. -/
def chop : List Char → List Char → Option (List Char)
  | [], cs => some cs
  | _ :: _, [] => none
  | p :: ps, c :: cs => if c = p then chop ps cs else none

def prefixAt : List Char → List Char → Bool
  | [], _ => true
  | _ :: _, [] => false
  | p :: ps, c :: cs => c = p && prefixAt ps cs

/-- Substring containment, the embedding of JavaScript `String.includes`. -/
def hasInfix (pat : List Char) : List Char → Bool
  | [] => pat.isEmpty
  | c :: cs => prefixAt pat (c :: cs) || hasInfix pat cs

def strIncludes (s pat : String) : Bool := hasInfix pat.data s.data

/-- JavaScript `String.startsWith`. -/
def strStarts (s pat : String) : Bool := prefixAt pat.data s.data

/-- JavaScript `String.endsWith`. -/
def strEnds (s pat : String) : Bool := prefixAt pat.data.reverse s.data.reverse

/-- JavaScript `String.toLowerCase` on the ASCII names and media types the
classifier sees. -/
def lowerStr (s : String) : String := String.mk (s.data.map Char.toLower)

/-! ## Format classifier (`getFileType` in the source) -/

inductive FileType where
  | pdf | image | excel | powerpoint | word | text
deriving DecidableEq, Repr

/-- Embedding of `getFileType`: the declared media type and the lowercased
file name are tested in the source's order. -/
def getFileType (type name0 : String) : FileType :=
  let name := lowerStr name0
  if type = "application/pdf" then .pdf
  else if strStarts type "image/" || strEnds name ".jpg" || strEnds name ".jpeg"
      || strEnds name ".png" || strEnds name ".bmp" || strEnds name ".webp" then .image
  else if strEnds name ".xlsx" || strEnds name ".xls" || strIncludes type "spreadsheet" then .excel
  else if strEnds name ".pptx" || strEnds name ".ppt" || strIncludes type "presentation" then .powerpoint
  else if strEnds name ".docx" || strIncludes type "wordprocessing" then .word
  else if type = "text/plain" || strEnds name ".txt" then .text
  else .text

/-- Modelled from the spec: the classifier decision order of section 4.1 —
an explicit media-type match for every format kind first, then the
case-insensitive file-extension fallback, then `plainText`. This definition
follows the spec's words, not the source, and exists only to be compared
with `getFileType`. -/
def specOrderFileType (type name0 : String) : FileType :=
  let name := lowerStr name0
  if type = "application/pdf" then .pdf
  else if strStarts type "image/" then .image
  else if strIncludes type "spreadsheet" then .excel
  else if strIncludes type "presentation" then .powerpoint
  else if strIncludes type "wordprocessing" then .word
  else if type = "text/plain" then .text
  else if strEnds name ".jpg" || strEnds name ".jpeg" || strEnds name ".png"
      || strEnds name ".bmp" || strEnds name ".webp" then .image
  else if strEnds name ".xlsx" || strEnds name ".xls" then .excel
  else if strEnds name ".pptx" || strEnds name ".ppt" then .powerpoint
  else if strEnds name ".docx" then .word
  else if strEnds name ".txt" then .text
  else .text

/-! ## Extractor adapters

Each adapter receives the data its external decoder capability delivers and
emits unit-segmented text plus a unit count. -/

/-- One text item of a pdf.js page: its string and its end-of-line flag. -/
structure PdfItem where
  str : String
  hasEOL : Bool
deriving DecidableEq, Repr

/-- Page text assembly of `extractFromPDF`: `item.str + (item.hasEOL ? '\n' : ' ')`,
joined. -/
def pdfPageText (items : List PdfItem) : String :=
  String.join (items.map fun it => it.str ++ (if it.hasEOL then "\n" else " "))

/-- The unit-header token `--- <kw> <i> ---`. -/
def headerToken (kw : String) (i : Nat) : String :=
  "--- " ++ kw ++ " " ++ natToStr i ++ " ---"

/-- One emitted unit block: header, newline, unit content, blank line. -/
def unitBlock (kw : String) (i : Nat) (content : String) : String :=
  headerToken kw i ++ "\n" ++ content ++ "\n\n"

/-- The accumulation loop shared by `extractFromPDF` and `extractFromPPTX`:
`fullText += '--- <kw> ' + i + ' ---\n' + content + '\n\n'` with a 1-based
counter starting at `i`. -/
def emitUnitsFrom (kw : String) (i : Nat) : List String → String
  | [] => ""
  | c :: cs => unitBlock kw i c ++ emitUnitsFrom kw (i + 1) cs

/-- Embedding of `extractFromPDF`, given the page item lists delivered by
pdf.js; returns the accumulated text and `pdf.numPages`. -/
def extractFromPDF (pages : List (List PdfItem)) : String × Nat :=
  (emitUnitsFrom "Page" 1 (pages.map pdfPageText), pages.length)

/-- Embedding of `extractFromExcel`, given `(sheetName, csv)` pairs in
workbook order. -/
def extractFromExcel (sheets : List (String × String)) : String × Nat :=
  (String.join (sheets.map fun s => "--- Sheet: " ++ s.1 ++ " ---\n" ++ s.2 ++ "\n\n"),
   sheets.length)

/-- Slide content assembly of `extractFromPPTX`: every `a:t` text node
followed by a line break. -/
def slideText (tnodes : List String) : String :=
  String.join (tnodes.map fun t => t ++ "\n")

/-- Parses `slide(\d+)\.xml` at the head of `cs`. -/
def slideRefAt (cs : List Char) : Option Nat :=
  match chop "slide".data cs with
  | none => none
  | some r1 =>
    let ds := r1.takeWhile isDigitChar
    let r2 := r1.dropWhile isDigitChar
    if ds.isEmpty then none
    else match chop ".xml".data r2 with
      | none => none
      | some _ => some (digitsVal ds)

/-- Leftmost match of `slide(\d+)\.xml` in a name. -/
def slideRefFind : List Char → Option Nat
  | [] => none
  | c :: cs =>
    match slideRefAt (c :: cs) with
    | some n => some n
    | none => slideRefFind cs

/-- `parseInt(name.match(/slide(\d+)\.xml/)?.[1] || "0")`. -/
def slideNum (name : String) : Nat := (slideRefFind name.data).getD 0

/-- Stable insertion step for the numeric slide comparator. -/
def slideInsert (x : String × List String) :
    List (String × List String) → List (String × List String)
  | [] => [x]
  | y :: ys => if slideNum x.1 ≤ slideNum y.1 then x :: y :: ys else y :: slideInsert x ys

/-- Stable sort modelling `slideFiles.sort((a, b) => numA - numB)`. -/
def slideSort : List (String × List String) → List (String × List String)
  | [] => []
  | x :: xs => slideInsert x (slideSort xs)

/-- Discovery and ordering of slides: archive entries whose name starts with
`ppt/slides/slide` and ends with `.xml`, sorted numerically. Each entry
carries the text contents of its `a:t` nodes in document order. -/
def slideEntries (entries : List (String × List String)) : List (String × List String) :=
  slideSort (entries.filter fun e => strStarts e.1 "ppt/slides/slide" && strEnds e.1 ".xml")

/-- Embedding of `extractFromPPTX`, given the archive entries delivered by
JSZip and the XML reader. -/
def extractFromPPTX (entries : List (String × List String)) : String × Nat :=
  let slides := slideEntries entries
  (emitUnitsFrom "Slide" 1 (slides.map fun e => slideText e.2), slides.length)

/-! ## Normalized document model (`extractTextFromDocument`) -/

/-- The `DocumentData` record the source builds after extraction. The
`Math.random()` identifier is nondeterministic and omitted. -/
structure DocumentData where
  name : String
  text : String
  pageCount : Nat
  fileType : FileType
  base64Data : Option String
  mimeType : String
deriving DecidableEq, Repr

/-- An uploaded file as the adapters see it: name, declared media type, and
the base64 rendering of its bytes that `fileToBase64` (a `FileReader`
capability) would deliver. -/
structure FileMeta where
  name : String
  mimeType : String
  b64 : String
deriving DecidableEq, Repr

/-- Outputs of the injected decoder capabilities for one file. `none`
means the capability is unavailable or its decode rejected, which the
source surfaces as a thrown error. -/
structure Caps where
  pdfPages : Option (List (List PdfItem))
  sheets : Option (List (String × String))
  zipEntries : Option (List (String × List String))
  docxText : Option String
  ocrText : Option String
  rawText : Option String
deriving Repr

/-- Embedding of `extractTextFromDocument`: classify, compute the image
base64 payload before the switch, run the matching adapter, and wrap the
result into a `DocumentData` without any further validation. A `none`
capability propagates as `Except.error`, so no record is produced. -/
def extractTextFromDocument (f : FileMeta) (caps : Caps) : Except String DocumentData :=
  let ft := getFileType f.mimeType f.name
  let base64Data : Option String := if ft = FileType.image then some f.b64 else none
  let res : Except String (String × Nat) :=
    match ft with
    | .pdf =>
      match caps.pdfPages with
      | none => .error "PDF Library not loaded"
      | some ps => .ok (extractFromPDF ps)
    | .excel =>
      match caps.sheets with
      | none => .error "Excel Library not loaded"
      | some ss => .ok (extractFromExcel ss)
    | .powerpoint =>
      match caps.zipEntries with
      | none => .error "ZIP Library not loaded for PPTX"
      | some es => .ok (extractFromPPTX es)
    | .word =>
      match caps.docxText with
      | none => .error "Word Library not loaded"
      | some v => .ok ("--- Document Content ---\n" ++ v, 1)
    | .image =>
      match caps.ocrText with
      | none => .error "OCR failed"
      | some t => .ok ("--- Image OCR Result ---\n" ++ t, 1)
    | .text =>
      match caps.rawText with
      | none => .error "File read failed"
      | some t => .ok ("--- Text File ---\n" ++ t, 1)
  match res with
  | .error e => .error e
  | .ok r =>
    .ok { name := f.name, text := r.1, pageCount := r.2, fileType := ft,
          base64Data := base64Data, mimeType := f.mimeType }

/-! ## Unit-header scanning and the anchor resolver

`DocumentViewer` recovers anchors by scanning `normalizedText` for the
header tokens (`--- Page \d+ ---` / `--- Slide \d+ ---`), giving each hit
an element id `doc-page-N`; navigation looks the id up with
`getElementById`, which returns the first hit in document order. -/

/-- Parses `--- <kw> <digits> ---` at the head of `cs`, returning the unit
index and the remainder after the token. -/
def parseHeaderKw (kw : String) (cs : List Char) : Option (Nat × List Char) :=
  match chop ("--- " ++ kw ++ " ").data cs with
  | none => none
  | some r1 =>
    let ds := r1.takeWhile isDigitChar
    let r2 := r1.dropWhile isDigitChar
    if ds.isEmpty then none
    else
      match chop " ---".data r2 with
      | none => none
      | some r3 => some (digitsVal ds, r3)

/-- First keyword of `kws` whose header token parses at the head of `cs`
(the regex alternation order). -/
def parseHeader : List String → List Char → Option (Nat × List Char)
  | [], _ => none
  | kw :: rest, cs =>
    match parseHeaderKw kw cs with
    | some r => some r
    | none => parseHeader rest cs

/-- Single left-to-right non-overlapping scan for header tokens, fuelled;
every call keeps `cs.length ≤ fuel`. -/
def headerScanF (kws : List String) : Nat → List Char → List Nat
  | _, [] => []
  | 0, _ :: _ => []
  | f + 1, c :: cs =>
    match parseHeader kws (c :: cs) with
    | some (n, rest) => n :: headerScanF kws f rest
    | none => headerScanF kws f cs

/-- Unit indices of the header tokens of `cs`, in document order. -/
def headerScan (kws : List String) (cs : List Char) : List Nat :=
  headerScanF kws cs.length cs

/-- Position of the first occurrence of `i` in a list (the `getElementById`
first-match rule over the rendered anchors). -/
def firstPos (i : Nat) : List Nat → Option Nat
  | [] => none
  | n :: ns => if n = i then some 0 else (firstPos i ns).map (· + 1)

/-- Text-path anchor resolution: the ordinal of the first rendered header
element with unit index `i`, or `none` when no such anchor exists (the
`getElementById` miss, after which the scroll effect does nothing). -/
def resolveAnchor (text : String) (i : Nat) : Option Nat :=
  firstPos i (headerScan ["Page", "Slide"] text.data)

/-- Native-path locator of `PdfFrame`: `page ? baseUrl#page=N : baseUrl`,
with `0`, `null` and `undefined` all falsy. -/
def pdfFrameSrc (baseUrl : String) (page : Option Nat) : String :=
  match page with
  | some p => if p = 0 then baseUrl else baseUrl ++ "#page=" ++ natToStr p
  | none => baseUrl

/-- A text fragment is header-free when the scanner finds no unit-header
token anywhere in it. -/
def headerFree (kws : List String) (s : String) : Prop :=
  headerScan kws s.data = []

instance (kws : List String) (s : String) : Decidable (headerFree kws s) := by
  unfold headerFree; infer_instance

/-! ## Citation token scanning (`renderContent` in `ChatMessage`)

The regex is `\[(Page|Slide|Sheet)\s+(\d+)\]` with the `gi` flags: a
single pass, case-insensitive on the unit word, collecting the plain text
between matches and a clickable reference for each match. -/

/-- JavaScript `\s` on the characters that can occur here: ASCII whitespace
plus no-break space and the BOM. -/
def isJsSpace (c : Char) : Bool :=
  c.toNat = 32 || c.toNat = 9 || c.toNat = 10 || c.toNat = 13 ||
  c.toNat = 11 || c.toNat = 12 || c.toNat = 160 || c.toNat = 65279

/-- Case-insensitive literal match: consumed original characters and the
remainder. -/
def matchCI : List Char → List Char → Option (List Char × List Char)
  | [], cs => some ([], cs)
  | _ :: _, [] => none
  | k :: ks, c :: cs =>
    if c.toLower = k then (matchCI ks cs).map (fun p => (c :: p.1, p.2)) else none

/-- The `(Page|Slide|Sheet)` alternation, case-insensitive. -/
def matchUnitWord (cs : List Char) : Option (List Char × List Char) :=
  match matchCI "page".data cs with
  | some r => some r
  | none =>
    match matchCI "slide".data cs with
    | some r => some r
    | none => matchCI "sheet".data cs

/-- Parses one citation token `\[(Page|Slide|Sheet)\s+(\d+)\]` at the head
of `cs`: the matched literal, the parsed integer, and the remainder. -/
def parseCite (cs : List Char) : Option (String × Nat × List Char) :=
  match cs with
  | [] => none
  | c :: r1 =>
    if c = '[' then
      match matchUnitWord r1 with
      | none => none
      | some (kw, r2) =>
        let ws := r2.takeWhile isJsSpace
        let r3 := r2.dropWhile isJsSpace
        if ws.isEmpty then none
        else
          let ds := r3.takeWhile isDigitChar
          let r4 := r3.dropWhile isDigitChar
          if ds.isEmpty then none
          else
            match r4 with
            | ']' :: r5 => some (String.mk ('[' :: (kw ++ ws ++ ds ++ [']'])), digitsVal ds, r5)
            | _ => none
    else none

/-- One rendered piece of an answer: a plain-text span, or a citation
reference carrying its matched literal and parsed unit index. -/
inductive RenderPart where
  | text (s : String)
  | cite (label : String) (n : Nat)
deriving DecidableEq, Repr

/-- Flushes the pending plain-text characters (held reversed) as a span;
the source only pushes a span when it is nonempty. -/
def flushPend (pend : List Char) : List RenderPart :=
  if pend.isEmpty then [] else [RenderPart.text (String.mk pend.reverse)]

/-- The `renderContent` scan loop, fuelled; every call keeps
`cs.length ≤ fuel`. -/
def citeScanF : Nat → List Char → List Char → List RenderPart
  | _, pend, [] => flushPend pend
  | 0, pend, _ :: _ => flushPend pend
  | f + 1, pend, c :: cs =>
    match parseCite (c :: cs) with
    | some (label, n, rest) =>
      flushPend pend ++ RenderPart.cite label n :: citeScanF f [] rest
    | none => citeScanF f (c :: pend) cs

def citeScanAux (pend cs : List Char) : List RenderPart := citeScanF cs.length pend cs

/-- Embedding of `renderContent`: the parts list, or the whole string as a
single span when the list would be empty (`parts.length > 0 ? parts : text`). -/
def citeScan (s : String) : List RenderPart :=
  let ps := citeScanAux [] s.data
  if ps.isEmpty then [RenderPart.text s] else ps

/-- Concatenation of the rendered parts back into text: spans contribute
their text, citations the matched literal displayed on the button. -/
def flatParts : List RenderPart → String
  | [] => ""
  | RenderPart.text t :: ps => t ++ flatParts ps
  | RenderPart.cite l _ :: ps => l ++ flatParts ps

/-! ## Audio decode pipeline (`audioService`)

Synthesized speech arrives as base64-encoded 16-bit signed little-endian
PCM. `decodeBase64` wraps the platform `atob`; `decodeAudioData`
reinterprets the bytes as `Int16Array` (a `RangeError` on an odd byte
count) and builds an `AudioBuffer` (a `NotSupportedError` on zero frames),
normalizing each sample by `/ 32768`. Sample values `k / 32768` with
`|k| ≤ 32768` are exactly representable in binary floating point, so ℚ is
an exact model of the produced channel data. -/

/-- Two little-endian bytes as a 16-bit signed integer. -/
def toInt16 (lo hi : Nat) : Int :=
  let v := lo + 256 * hi
  if v < 32768 then (v : Int) else (v : Int) - 65536

/-- The `Int16Array` view of a byte buffer: `none` models the `RangeError`
thrown when the byte length is not a multiple of 2. -/
def bytesToI16 : List Nat → Option (List Int)
  | [] => some []
  | [_] => none
  | lo :: hi :: rest => (bytesToI16 rest).map (fun l => toInt16 lo hi :: l)

/-- Embedding of `decodeAudioData` (mono): `none` models a thrown
`RangeError` (odd byte count) or `NotSupportedError` (`createBuffer` with
zero frames); otherwise each sample is the 16-bit value divided by 32768. -/
def decodeAudioData (bytes : List Nat) : Option (List ℚ) :=
  match bytesToI16 bytes with
  | none => none
  | some [] => none
  | some (k :: ks) => some ((k :: ks).map fun (v : Int) => (v : ℚ) / 32768)

/-- Base64 alphabet value of one character. -/
def b64val (c : Char) : Option Nat :=
  if 65 ≤ c.toNat ∧ c.toNat ≤ 90 then some (c.toNat - 65)
  else if 97 ≤ c.toNat ∧ c.toNat ≤ 122 then some (c.toNat - 97 + 26)
  else if 48 ≤ c.toNat ∧ c.toNat ≤ 57 then some (c.toNat - 48 + 52)
  else if c = '+' then some 62
  else if c = '/' then some 63
  else none

/-- Decodes groups of four base64 characters (with a final group of two or
three) into bytes; any other shape or character is an `atob` error. -/
def b64core : List Char → Option (List Nat)
  | [] => some []
  | [a, b] => do
    let va ← b64val a
    let vb ← b64val b
    pure [va * 4 + vb / 16]
  | [a, b, c] => do
    let va ← b64val a
    let vb ← b64val b
    let vc ← b64val c
    pure [va * 4 + vb / 16, (vb % 16) * 16 + vc / 4]
  | a :: b :: c :: d :: rest => do
    let va ← b64val a
    let vb ← b64val b
    let vc ← b64val c
    let vd ← b64val d
    let tl ← b64core rest
    pure ((va * 4 + vb / 16) :: ((vb % 16) * 16 + vc / 4) :: ((vc % 4) * 64 + vd) :: tl)
  | [_] => none

/-- Removes up to two trailing padding characters. -/
def stripPad (cs : List Char) : List Char :=
  match cs.reverse with
  | '=' :: '=' :: r => r.reverse
  | '=' :: r => r.reverse
  | _ => cs

/-- Embedding of `decodeBase64` over the platform `atob` (forgiving
base64): padding is stripped only from length-4k inputs, a remainder of one
character or a non-alphabet character is an error (`none` models the
thrown `InvalidCharacterError`). -/
def b64decode (s : String) : Option (List Nat) :=
  let cs := if s.data.length % 4 = 0 then stripPad s.data else s.data
  if cs.length % 4 = 1 then none else b64core cs

/-- What one `play()` call does with its inputs: start a decoded PCM
buffer, speak the text with the platform voice, or signal completion
immediately. -/
inductive PlayAction where
  | startBuffer (samples : List ℚ)
  | speakText (t : String)
  | signalEnd
deriving DecidableEq, Repr

/-- The fallback tail of `play()`: platform speech when a (truthy) text is
available, otherwise an immediate completion signal. -/
def fallbackAction : Option String → PlayAction
  | some t => if t = "" then PlayAction.signalEnd else PlayAction.speakText t
  | none => PlayAction.signalEnd

/-- The decision structure of `play()`: a truthy `base64Audio` is decoded
inside `try`; any decode failure falls through to the fallback. -/
def playAction (base64Audio : Option String) (text : Option String) : PlayAction :=
  match base64Audio with
  | none => fallbackAction text
  | some b =>
    if b = "" then fallbackAction text
    else
      match b64decode b with
      | none => fallbackAction text
      | some bytes =>
        match decodeAudioData bytes with
        | none => fallbackAction text
        | some samples => PlayAction.startBuffer samples

/-! ## Playback-slot state machine

`play()` always stops the current source first and then installs the new
one; the platform later fires `ended` once for every started source (also
when it was stopped). The guarded service (the second `AudioService`)
ignores an `ended` whose source is no longer `currentSource`; the
unguarded one (the first `AudioService`) clears the slot and invokes the
superseded callback unconditionally. -/

structure AudioSt where
  current : Option Nat
  invoked : List Nat
deriving DecidableEq, Repr

inductive AudioEv where
  | play (id : Nat)
  | ended (id : Nat)
deriving DecidableEq, Repr

/-- Second `AudioService`: `onended` runs its callback only if
`this.currentSource === source`. -/
def stepGuarded (s : AudioSt) : AudioEv → AudioSt
  | .play id => { current := some id, invoked := s.invoked }
  | .ended id =>
    if s.current = some id then { current := none, invoked := s.invoked ++ [id] } else s

/-- First `AudioService`: `onended` clears `currentSource` and invokes its
callback unconditionally. -/
def stepUnguarded (s : AudioSt) : AudioEv → AudioSt
  | .play id => { current := some id, invoked := s.invoked }
  | .ended id => { current := none, invoked := s.invoked ++ [id] }

def runGuarded (evs : List AudioEv) : AudioSt :=
  evs.foldl stepGuarded { current := none, invoked := [] }

def runUnguarded (evs : List AudioEv) : AudioSt :=
  evs.foldl stepUnguarded { current := none, invoked := [] }

/-! ## Lemmas: decimal numerals -/

theorem digitChar_isDigit (d : Nat) : isDigitChar (digitChar d) = true := by
  unfold digitChar
  split <;> decide

theorem digitVal_digitChar {d : Nat} (h : d < 10) : digitVal (digitChar d) = d := by
  unfold digitChar
  split <;> simp_all [digitVal] <;> omega

theorem toDecGo_mono : ∀ f g n acc, n ≤ f → n ≤ g → toDecGo f n acc = toDecGo g n acc := by
  intro f
  induction f with
  | zero =>
    intro g n acc hf _
    interval_cases n
    cases g <;> simp [toDecGo]
  | succ f ih =>
    intro g n acc hf hg
    cases g with
    | zero =>
      interval_cases n
      simp [toDecGo]
    | succ g =>
      by_cases h10 : n < 10
      · simp [toDecGo, h10]
      · have hn : 10 ≤ n := Nat.le_of_not_lt h10
        have hd : n / 10 < n := Nat.div_lt_self (by omega) (by decide)
        simp only [toDecGo, if_neg h10]
        exact ih g (n / 10) _ (by omega) (by omega)

theorem toDecGo_acc : ∀ f n acc, toDecGo f n acc = toDecGo f n [] ++ acc := by
  intro f
  induction f with
  | zero => intro n acc; simp [toDecGo]
  | succ f ih =>
    intro n acc
    by_cases h10 : n < 10
    · simp [toDecGo, h10]
    · simp only [toDecGo, if_neg h10]
      rw [ih (n / 10) (digitChar (n % 10) :: acc), ih (n / 10) [digitChar (n % 10)]]
      simp

theorem toDec_lt10 {n : Nat} (h : n < 10) : toDec n = [digitChar n] := by
  unfold toDec
  cases n with
  | zero => rfl
  | succ m => simp [toDecGo, h]

theorem toDec_ge10 {n : Nat} (h : 10 ≤ n) : toDec n = toDec (n / 10) ++ [digitChar (n % 10)] := by
  unfold toDec
  cases n with
  | zero => omega
  | succ m =>
    simp only [toDecGo, if_neg (Nat.not_lt.mpr h)]
    rw [toDecGo_acc]
    congr 1
    exact toDecGo_mono m ((m + 1) / 10) ((m + 1) / 10) []
      (by have : (m + 1) / 10 < m + 1 := Nat.div_lt_self (by omega) (by decide); omega) le_rfl

theorem toDec_ne_nil (n : Nat) : toDec n ≠ [] := by
  by_cases h : n < 10
  · simp [toDec_lt10 h]
  · simp [toDec_ge10 (Nat.le_of_not_lt h)]

theorem toDec_digits (n : Nat) : ∀ c ∈ toDec n, isDigitChar c = true := by
  induction n using Nat.strong_induction_on with
  | _ n ih =>
    by_cases h : n < 10
    · simp [toDec_lt10 h, digitChar_isDigit]
    · have h10 : 10 ≤ n := Nat.le_of_not_lt h
      rw [toDec_ge10 h10]
      intro c hc
      rcases List.mem_append.mp hc with hc | hc
      · exact ih (n / 10) (Nat.div_lt_self (by omega) (by decide)) c hc
      · simp at hc
        simp [hc, digitChar_isDigit]

theorem foldl_toDec (n : Nat) :
    ∀ acc, List.foldl (fun a c => a * 10 + digitVal c) acc (toDec n) =
      acc * 10 ^ (toDec n).length + n := by
  induction n using Nat.strong_induction_on with
  | _ n ih =>
    intro acc
    by_cases h : n < 10
    · simp [toDec_lt10 h, digitVal_digitChar h]
    · have h10 : 10 ≤ n := Nat.le_of_not_lt h
      rw [toDec_ge10 h10, List.foldl_append, List.length_append,
        ih (n / 10) (Nat.div_lt_self (by omega) (by decide)) acc]
      simp only [List.foldl_cons, List.foldl_nil, List.length_cons, List.length_nil]
      rw [digitVal_digitChar (Nat.mod_lt n (by decide))]
      have : n = 10 * (n / 10) + n % 10 := (Nat.div_add_mod n 10).symm
      ring_nf
      omega

theorem digitsVal_toDec (n : Nat) : digitsVal (toDec n) = n := by
  unfold digitsVal
  rw [foldl_toDec n 0]
  simp

/-! ## Lemmas: literal prefixes and while-splits -/

theorem chop_sound : ∀ p cs r, chop p cs = some r → cs = p ++ r := by
  intro p
  induction p with
  | nil => intro cs r h; simp [chop] at h; simp [h]
  | cons p ps ih =>
    intro cs r h
    cases cs with
    | nil => simp [chop] at h
    | cons c cs =>
      by_cases hc : c = p
      · simp [chop, hc] at h
        simp [hc, ih cs r h]
      · simp [chop, hc] at h

theorem chop_self : ∀ p r, chop p (p ++ r) = some r := by
  intro p
  induction p with
  | nil => intro r; rfl
  | cons p ps ih => intro r; simp [chop, ih]

theorem chop_nl {p : List Char} (hp : '\n' ∉ p) :
    ∀ xs ys, chop p (xs ++ '\n' :: ys) = (chop p xs).map (· ++ '\n' :: ys) := by
  induction p with
  | nil => intro xs ys; rfl
  | cons p ps ih =>
    intro xs ys
    have hpne : p ≠ '\n' := by rintro rfl; simp at hp
    cases xs with
    | nil =>
      simp only [List.nil_append, chop]
      rw [if_neg (by simpa using fun h => hpne h.symm)]
      rfl
    | cons c cs =>
      by_cases hc : c = p
      · simp only [List.cons_append, chop, if_pos hc]
        exact ih (fun h => hp (List.mem_cons_of_mem _ h)) cs ys
      · simp [chop, hc]

theorem takeWhile_all_head {p : Char → Bool} :
    ∀ xs y ys, (∀ c ∈ xs, p c = true) → p y = false →
      (xs ++ y :: ys).takeWhile p = xs := by
  intro xs
  induction xs with
  | nil => intro y ys _ hy; simp [List.takeWhile_cons, hy]
  | cons x xs ih =>
    intro y ys hall hy
    have hx : p x = true := hall x (by simp)
    simp only [List.cons_append, List.takeWhile_cons_of_pos hx]
    rw [ih y ys (fun c hc => hall c (by simp [hc])) hy]

theorem dropWhile_all_head {p : Char → Bool} :
    ∀ xs y ys, (∀ c ∈ xs, p c = true) → p y = false →
      (xs ++ y :: ys).dropWhile p = y :: ys := by
  intro xs
  induction xs with
  | nil => intro y ys _ hy; simp [List.dropWhile_cons, hy]
  | cons x xs ih =>
    intro y ys hall hy
    have hx : p x = true := hall x (by simp)
    simp only [List.cons_append, List.dropWhile_cons_of_pos hx]
    exact ih y ys (fun c hc => hall c (by simp [hc])) hy

theorem takeWhile_nl {p : Char → Bool} (hnl : p '\n' = false) :
    ∀ xs ys, (xs ++ '\n' :: ys).takeWhile p = xs.takeWhile p := by
  intro xs
  induction xs with
  | nil => intro ys; simp [List.takeWhile_cons, hnl]
  | cons x xs ih =>
    intro ys
    by_cases hx : p x = true
    · simp [List.takeWhile_cons_of_pos hx, ih]
    · simp [List.takeWhile_cons, if_neg hx]

theorem dropWhile_nl {p : Char → Bool} (hnl : p '\n' = false) :
    ∀ xs ys, (xs ++ '\n' :: ys).dropWhile p = xs.dropWhile p ++ '\n' :: ys := by
  intro xs
  induction xs with
  | nil => intro ys; simp [List.dropWhile_cons, hnl]
  | cons x xs ih =>
    intro ys
    by_cases hx : p x = true
    · simp [List.dropWhile_cons_of_pos hx, ih]
    · simp [List.dropWhile_cons, if_neg hx]

/-! ## Lemmas: the unit-header parser -/

theorem parseHeaderKw_sound {kw : String} {cs : List Char} {n : Nat} {r : List Char}
    (h : parseHeaderKw kw cs = some (n, r)) :
    ∃ ds, cs = ("--- " ++ kw ++ " ").data ++ ds ++ " ---".data ++ r := by
  unfold parseHeaderKw at h
  cases hc : chop ("--- " ++ kw ++ " ").data cs with
  | none => rw [hc] at h; simp at h
  | some r1 =>
    rw [hc] at h
    simp only [] at h
    split at h
    · simp at h
    · cases hc2 : chop " ---".data (r1.dropWhile isDigitChar) with
      | none => rw [hc2] at h; simp at h
      | some r3 =>
        rw [hc2] at h
        simp only [Option.some.injEq, Prod.mk.injEq] at h
        refine ⟨r1.takeWhile isDigitChar, ?_⟩
        rw [chop_sound _ _ _ hc, ← h.2, List.append_assoc, List.append_assoc,
          ← chop_sound _ _ _ hc2, List.takeWhile_append_dropWhile]

theorem parseHeaderKw_lt {kw : String} {cs : List Char} {n : Nat} {r : List Char}
    (h : parseHeaderKw kw cs = some (n, r)) : r.length < cs.length := by
  obtain ⟨ds, hds⟩ := parseHeaderKw_sound h
  subst hds
  simp [List.length_append]
  omega

theorem parseHeader_lt {kws : List String} {cs : List Char} {n : Nat} {r : List Char} :
    parseHeader kws cs = some (n, r) → r.length < cs.length := by
  induction kws with
  | nil => intro h; simp [parseHeader] at h
  | cons kw kws ih =>
    intro h
    simp only [parseHeader] at h
    cases hk : parseHeaderKw kw cs with
    | none => rw [hk] at h; exact ih h
    | some p => rw [hk] at h; cases p; cases h; exact parseHeaderKw_lt hk

theorem parseHeaderKw_nl {kw : String} (hkw : '\n' ∉ kw.data) (xs ys : List Char) :
    parseHeaderKw kw (xs ++ '\n' :: ys) =
      (parseHeaderKw kw xs).map (fun p => (p.1, p.2 ++ '\n' :: ys)) := by
  have hpre : '\n' ∉ ("--- " ++ kw ++ " ").data := by
    simp only [String.data_append, List.mem_append]
    rintro ((h | h) | h)
    · simp [show ("--- " : String).data = ['-', '-', '-', ' '] from rfl] at h
    · exact hkw h
    · simp [show (" " : String).data = [' '] from rfl] at h
  have htail : '\n' ∉ (" ---" : String).data := by decide
  unfold parseHeaderKw
  rw [chop_nl hpre]
  cases hc : chop ("--- " ++ kw ++ " ").data xs with
  | none => simp
  | some r1 =>
    simp only [Option.map_some']
    rw [takeWhile_nl (by decide), dropWhile_nl (by decide)]
    split
    · simp
    · rw [chop_nl htail]
      cases hc2 : chop " ---".data (r1.dropWhile isDigitChar) with
      | none => simp
      | some r3 => simp

theorem parseHeader_nl {kws : List String} (hkws : ∀ kw ∈ kws, '\n' ∉ kw.data)
    (xs ys : List Char) :
    parseHeader kws (xs ++ '\n' :: ys) =
      (parseHeader kws xs).map (fun p => (p.1, p.2 ++ '\n' :: ys)) := by
  induction kws with
  | nil => simp [parseHeader]
  | cons kw kws ih =>
    simp only [parseHeader]
    rw [parseHeaderKw_nl (hkws kw (by simp)) xs ys]
    cases hk : parseHeaderKw kw xs with
    | none =>
      simp only [Option.map_none]
      exact ih (fun w hw => hkws w (by simp [hw]))
    | some p => simp

theorem parseHeaderKw_nlHead (kw : String) (cs : List Char) :
    parseHeaderKw kw ('\n' :: cs) = none := by
  unfold parseHeaderKw
  have hchop : chop ("--- " ++ kw ++ " ").data ('\n' :: cs) = none := by
    have hd : ("--- " ++ kw ++ " ").data = '-' :: (("-- " ++ kw ++ " ").data) := by
      simp [String.data_append, show ("--- " : String).data = ['-', '-', '-', ' '] from rfl,
        show ("-- " : String).data = ['-', '-', ' '] from rfl]
    rw [hd]
    simp [chop]
  rw [hchop]

theorem parseHeader_nlHead (kws : List String) (cs : List Char) :
    parseHeader kws ('\n' :: cs) = none := by
  induction kws with
  | nil => rfl
  | cons kw kws ih => simp only [parseHeader, parseHeaderKw_nlHead, ih]

theorem parseHeaderKw_self (kw : String) (i : Nat) (r : List Char) :
    parseHeaderKw kw ((headerToken kw i).data ++ r) = some (i, r) := by
  have hdata : (headerToken kw i).data ++ r
      = ("--- " ++ kw ++ " ").data ++ (toDec i ++ (" ---".data ++ r)) := by
    simp [headerToken, natToStr, String.data_append]
  rw [hdata]
  unfold parseHeaderKw
  rw [chop_self]
  have htail : (" ---" : String).data ++ r = ' ' :: (['-', '-', '-'] ++ r) := by
    simp [show (" ---" : String).data = [' ', '-', '-', '-'] from rfl]
  have htake : (toDec i ++ (" ---".data ++ r)).takeWhile isDigitChar = toDec i := by
    rw [htail]
    exact takeWhile_all_head _ _ _ (toDec_digits i) (by decide)
  have hdrop : (toDec i ++ (" ---".data ++ r)).dropWhile isDigitChar = " ---".data ++ r := by
    rw [htail]
    rw [dropWhile_all_head _ _ _ (toDec_digits i) (by decide)]
  simp only [htake, hdrop]
  rw [if_neg (by simp [toDec_ne_nil i])]
  rw [chop_self]
  simp [digitsVal_toDec]

/-! ## Lemmas: header scanning -/

theorem headerScanF_mono (kws : List String) :
    ∀ f g cs, cs.length ≤ f → cs.length ≤ g → headerScanF kws f cs = headerScanF kws g cs := by
  intro f
  induction f with
  | zero =>
    intro g cs hf _
    have : cs = [] := List.length_eq_zero.mp (Nat.le_zero.mp hf)
    subst this
    cases g <;> rfl
  | succ f ih =>
    intro g cs hf hg
    cases cs with
    | nil => cases g <;> rfl
    | cons c cs =>
      cases g with
      | zero => simp at hg
      | succ g =>
        have hf' : cs.length + 1 ≤ f + 1 := by simpa using hf
        have hg' : cs.length + 1 ≤ g + 1 := by simpa using hg
        simp only [headerScanF]
        cases hp : parseHeader kws (c :: cs) with
        | none => exact ih g cs (by omega) (by omega)
        | some p =>
          cases p with
          | mk n rest =>
            have hlt : rest.length < cs.length + 1 := by
              simpa using parseHeader_lt hp
            simp only []
            rw [ih g rest (by omega) (by omega)]

theorem headerScan_match {kws : List String} {cs rest : List Char} {n : Nat}
    (hne : cs ≠ []) (hp : parseHeader kws cs = some (n, rest)) :
    headerScan kws cs = n :: headerScan kws rest := by
  cases cs with
  | nil => exact absurd rfl hne
  | cons c cs =>
    unfold headerScan
    simp only [List.length_cons, headerScanF, hp]
    have hlt : rest.length < cs.length + 1 := by simpa using parseHeader_lt hp
    rw [headerScanF_mono kws cs.length rest.length rest (by omega) le_rfl]

theorem headerScan_skipOne {kws : List String} {c : Char} {cs : List Char}
    (hp : parseHeader kws (c :: cs) = none) :
    headerScan kws (c :: cs) = headerScan kws cs := by
  unfold headerScan
  simp only [List.length_cons, headerScanF, hp]

theorem headerScan_nlCons (kws : List String) (s : List Char) :
    headerScan kws ('\n' :: s) = headerScan kws s :=
  headerScan_skipOne (parseHeader_nlHead kws s)

theorem headerScan_skip {kws : List String} (hkws : ∀ kw ∈ kws, '\n' ∉ kw.data) :
    ∀ xs, headerScan kws xs = [] →
      ∀ s, headerScan kws (xs ++ '\n' :: s) = headerScan kws ('\n' :: s) := by
  intro xs
  induction xs with
  | nil => intro _ s; rfl
  | cons c cs ih =>
    intro hclean s
    have hp : parseHeader kws (c :: cs) = none := by
      cases hp : parseHeader kws (c :: cs) with
      | none => rfl
      | some p =>
        cases p with
        | mk n rest =>
          rw [headerScan_match (by simp) hp] at hclean
          simp at hclean
    have hcs : headerScan kws cs = [] := by
      rw [headerScan_skipOne hp] at hclean
      exact hclean
    have hpApp : parseHeader kws ((c :: cs) ++ '\n' :: s) = none := by
      rw [parseHeader_nl hkws (c :: cs) s, hp]
      rfl
    rw [List.cons_append] at hpApp ⊢
    rw [headerScan_skipOne hpApp]
    exact ih hcs s

/-- The main emission invariant: scanning the text emitted for `cs` unit
contents, numbered from `k`, yields exactly the indices `k, k+1, …`,
provided no content carries a header token of its own. -/
theorem headerScan_emit {kws : List String} {kw : String}
    (hkws : ∀ w ∈ kws, '\n' ∉ w.data)
    (hself : ∀ i r, parseHeader kws ((headerToken kw i).data ++ r) = some (i, r)) :
    ∀ cs k, (∀ c ∈ cs, headerFree kws c) →
      headerScan kws (emitUnitsFrom kw k cs).data = List.range' k cs.length := by
  intro cs
  induction cs with
  | nil => intro k _; rfl
  | cons c cs ih =>
    intro k hfree
    have hdata : (emitUnitsFrom kw k (c :: cs)).data =
        (headerToken kw k).data ++
          ('\n' :: (c.data ++ '\n' :: '\n' :: (emitUnitsFrom kw (k + 1) cs).data)) := by
      simp [emitUnitsFrom, unitBlock, String.data_append,
        show ("\n" : String).data = ['\n'] from rfl,
        show ("\n\n" : String).data = ['\n', '\n'] from rfl]
    rw [hdata]
    have hne : (headerToken kw k).data ++
        ('\n' :: (c.data ++ '\n' :: '\n' :: (emitUnitsFrom kw (k + 1) cs).data)) ≠ [] := by
      simp
    rw [headerScan_match hne (hself k _)]
    rw [headerScan_nlCons]
    rw [headerScan_skip hkws c.data (hfree c (by simp)) _]
    rw [headerScan_nlCons, headerScan_nlCons]
    rw [ih (k + 1) (fun x hx => hfree x (by simp [hx]))]
    rfl

theorem parseHeader_page_self (i : Nat) (r : List Char) :
    parseHeader ["Page"] ((headerToken "Page" i).data ++ r) = some (i, r) := by
  simp only [parseHeader, parseHeaderKw_self]

theorem parseHeader_slide_self (i : Nat) (r : List Char) :
    parseHeader ["Slide"] ((headerToken "Slide" i).data ++ r) = some (i, r) := by
  simp only [parseHeader, parseHeaderKw_self]

theorem parseHeader_pageSlide_self (i : Nat) (r : List Char) :
    parseHeader ["Page", "Slide"] ((headerToken "Page" i).data ++ r) = some (i, r) := by
  simp only [parseHeader, parseHeaderKw_self]

/-- Claim C1 (amended): for a PDF or slide-deck document whose decoder-supplied
unit contents are themselves free of unit-header tokens, the normalized text
contains exactly `unitCount` unit-header tokens and their indices are exactly
`1..unitCount`, strictly increasing in document order. -/
theorem c1_header_invariant :
    (∀ pages : List (List PdfItem),
      (∀ p ∈ pages, headerFree ["Page"] (pdfPageText p)) →
      headerScan ["Page"] (extractFromPDF pages).1.data =
        List.range' 1 (extractFromPDF pages).2) ∧
    (∀ entries : List (String × List String),
      (∀ e ∈ slideEntries entries, headerFree ["Slide"] (slideText e.2)) →
      headerScan ["Slide"] (extractFromPPTX entries).1.data =
        List.range' 1 (extractFromPPTX entries).2) := by
  constructor
  · intro pages hfree
    have := @headerScan_emit ["Page"] "Page"
      (by intro w hw; simp at hw; subst hw; decide)
      parseHeader_page_self (pages.map pdfPageText) 1
      (by intro c hc; obtain ⟨p, hp, rfl⟩ := List.mem_map.mp hc; exact hfree p hp)
    simpa [extractFromPDF] using this
  · intro entries hfree
    have := @headerScan_emit ["Slide"] "Slide"
      (by intro w hw; simp at hw; subst hw; decide)
      parseHeader_slide_self ((slideEntries entries).map fun e => slideText e.2) 1
      (by intro c hc; obtain ⟨e, he, rfl⟩ := List.mem_map.mp hc; exact hfree e he)
    simpa [extractFromPPTX] using this

/-- Claim C1 counterexample: when the PDF decoder delivers page text that itself
contains the literal `--- Page 1 ---`, the produced document has `unitCount = 1`
but two header tokens, both with index 1 — the invariant as stated fails. -/
theorem c1_counterexample :
    ¬ (headerScan ["Page"] (extractFromPDF [[⟨"--- Page 1 ---", false⟩]]).1.data =
        List.range' 1 (extractFromPDF [[⟨"--- Page 1 ---", false⟩]]).2) := by
  decide

theorem c1_witness :
    headerScan ["Page"] (extractFromPDF [[⟨"hello", true⟩], [⟨"world", false⟩]]).1.data =
      List.range' 1 (extractFromPDF [[⟨"hello", true⟩], [⟨"world", false⟩]]).2 :=
  c1_header_invariant.1 [[⟨"hello", true⟩], [⟨"world", false⟩]] (by decide)

/-! ## Lemmas: anchor resolution -/

theorem firstPos_range' :
    ∀ n k i, firstPos i (List.range' k n) =
      if k ≤ i ∧ i < k + n then some (i - k) else none := by
  intro n
  induction n with
  | zero =>
    intro k i
    rw [if_neg (by omega)]
    rfl
  | succ n ih =>
    intro k i
    show firstPos i (k :: List.range' (k + 1) n) = _
    simp only [firstPos, ih (k + 1) i]
    split_ifs with h1 h2 h3 h4 h5
    all_goals try (exfalso; omega)
    all_goals simp only [Option.map_some', Option.map_none', Option.some.injEq]
    all_goals omega

/-- A document emitted for `n` header-free page contents: resolution data. -/
theorem resolveAnchor_pdf (pages : List (List PdfItem))
    (hfree : ∀ p ∈ pages, headerFree ["Page", "Slide"] (pdfPageText p)) (i : Nat) :
    resolveAnchor (extractFromPDF pages).1 i =
      if 1 ≤ i ∧ i ≤ (extractFromPDF pages).2 then some (i - 1) else none := by
  unfold resolveAnchor
  have hscan := @headerScan_emit ["Page", "Slide"] "Page"
    (by intro w hw; simp at hw; rcases hw with rfl | rfl <;> decide)
    parseHeader_pageSlide_self (pages.map pdfPageText) 1
    (by intro c hc; obtain ⟨p, hp, rfl⟩ := List.mem_map.mp hc; exact hfree p hp)
  simp only [extractFromPDF] at hscan ⊢
  rw [hscan, firstPos_range']
  simp only [List.length_map]
  by_cases h : 1 ≤ i ∧ i ≤ pages.length
  · rw [if_pos (by omega), if_pos (by omega)]
  · rw [if_neg (by omega), if_neg (by omega)]

/-- Claim C5 (amended): in the text-anchor path, resolving unit index `i` of a
PDF document with header-free page contents succeeds exactly when
`1 ≤ i ≤ unitCount` and yields `none` (no clamping, no nearest-unit guess)
otherwise; in the native PDF path, `PdfFrame` embeds any nonzero index into
the URL hash without range validation, and index 0 (falsy) yields the bare
URL. -/
theorem c5_anchor_resolution :
    (∀ pages : List (List PdfItem),
      (∀ p ∈ pages, headerFree ["Page", "Slide"] (pdfPageText p)) →
      ∀ i, resolveAnchor (extractFromPDF pages).1 i =
        if 1 ≤ i ∧ i ≤ (extractFromPDF pages).2 then some (i - 1) else none) ∧
    (∀ base p, p ≠ 0 → pdfFrameSrc base (some p) = base ++ "#page=" ++ natToStr p) ∧
    (∀ base, pdfFrameSrc base (some 0) = base ∧ pdfFrameSrc base none = base) := by
  refine ⟨resolveAnchor_pdf, ?_, ?_⟩
  · intro base p hp
    simp [pdfFrameSrc, hp]
  · intro base
    exact ⟨rfl, rfl⟩

/-- Claim C5 counterexample: for a five-page PDF document with the raw file
still available, the native path does not fail on the out-of-range index 6 —
`PdfFrame` emits the navigation target `blob:doc#page=6`, a changed (not
refused) locator, instead of an `AnchorResolutionError`. -/
theorem c5_counterexample :
    (extractFromPDF [[⟨"a", true⟩], [⟨"b", true⟩], [⟨"c", true⟩], [⟨"d", true⟩],
        [⟨"e", true⟩]]).2 = 5 ∧
    pdfFrameSrc "blob:doc" (some 6) = "blob:doc#page=6" ∧
    pdfFrameSrc "blob:doc" (some 6) ≠ pdfFrameSrc "blob:doc" none := by
  refine ⟨rfl, ?_, ?_⟩ <;> decide

theorem c5_witness :
    resolveAnchor (extractFromPDF [[⟨"a", true⟩], [⟨"b", true⟩], [⟨"c", true⟩],
        [⟨"d", true⟩], [⟨"e", true⟩]]).1 5 = some 4 ∧
    resolveAnchor (extractFromPDF [[⟨"a", true⟩], [⟨"b", true⟩], [⟨"c", true⟩],
        [⟨"d", true⟩], [⟨"e", true⟩]]).1 6 = none ∧
    resolveAnchor (extractFromPDF [[⟨"a", true⟩], [⟨"b", true⟩], [⟨"c", true⟩],
        [⟨"d", true⟩], [⟨"e", true⟩]]).1 0 = none := by
  have h := c5_anchor_resolution.1 [[⟨"a", true⟩], [⟨"b", true⟩], [⟨"c", true⟩],
    [⟨"d", true⟩], [⟨"e", true⟩]] (by decide)
  refine ⟨?_, ?_, ?_⟩
  · rw [h 5]; decide
  · rw [h 6]; decide
  · rw [h 0]; decide

/-- Claim C6: with archive entries discovered in the order `slide2.xml`,
`slide10.xml`, `slide1.xml`, the slide-deck adapter sorts numerically (not
lexicographically) and emits unit headers 1, 2, 3 for `slide1`, `slide2`,
`slide10` in that order, whatever the slides' text contents are. -/
theorem c6_numeric_slide_order (a b c : List String) :
    extractFromPPTX [("ppt/slides/slide2.xml", a), ("ppt/slides/slide10.xml", b),
        ("ppt/slides/slide1.xml", c)] =
      (unitBlock "Slide" 1 (slideText c) ++ unitBlock "Slide" 2 (slideText a) ++
        unitBlock "Slide" 3 (slideText b), 3) := by
  have hse : slideEntries [("ppt/slides/slide2.xml", a), ("ppt/slides/slide10.xml", b),
      ("ppt/slides/slide1.xml", c)] =
      [("ppt/slides/slide1.xml", c), ("ppt/slides/slide2.xml", a),
       ("ppt/slides/slide10.xml", b)] := by
    unfold slideEntries
    simp +decide [List.filter, slideSort, slideInsert,
      show slideNum "ppt/slides/slide2.xml" = 2 from by decide,
      show slideNum "ppt/slides/slide10.xml" = 10 from by decide,
      show slideNum "ppt/slides/slide1.xml" = 1 from by decide]
  simp [extractFromPPTX, hse, emitUnitsFrom, String.append_assoc, String.append_empty]

instance {e a : Type} [DecidableEq e] [DecidableEq a] : DecidableEq (Except e a) := fun x y =>
  match x, y with
  | .error u, .error v =>
    if h : u = v then .isTrue (congrArg Except.error h)
    else .isFalse (fun q => h (by injection q))
  | .error _, .ok _ => .isFalse (fun q => by injection q)
  | .ok _, .error _ => .isFalse (fun q => by injection q)
  | .ok u, .ok v =>
    if h : u = v then .isTrue (congrArg Except.ok h)
    else .isFalse (fun q => h (by injection q))

/-! ## Claims on the classifier and the document constructor -/

/-- Claim C3 (amended): the classifier is total — every input yields exactly
one of the six kinds and unmatched inputs default to plain text — and the
`application/pdf` media type is tested first; but the decision order
interleaves media-type and extension tests per format, so a spreadsheet
file extension overrides a presentation media type instead of the
media-type match winning. -/
theorem c3_classifier :
    (∀ t n, getFileType t n ∈
      [FileType.pdf, FileType.image, FileType.excel, FileType.powerpoint,
       FileType.word, FileType.text]) ∧
    (∀ t n, t = "application/pdf" → getFileType t n = FileType.pdf) ∧
    (∀ t n, t ≠ "application/pdf" →
      (strStarts t "image/" || strEnds (lowerStr n) ".jpg" || strEnds (lowerStr n) ".jpeg"
        || strEnds (lowerStr n) ".png" || strEnds (lowerStr n) ".bmp"
        || strEnds (lowerStr n) ".webp") = false →
      (strEnds (lowerStr n) ".xlsx" || strEnds (lowerStr n) ".xls"
        || strIncludes t "spreadsheet") = false →
      (strEnds (lowerStr n) ".pptx" || strEnds (lowerStr n) ".ppt"
        || strIncludes t "presentation") = false →
      (strEnds (lowerStr n) ".docx" || strIncludes t "wordprocessing") = false →
      getFileType t n = FileType.text) ∧
    (∀ t n, t ≠ "application/pdf" →
      (strStarts t "image/" || strEnds (lowerStr n) ".jpg" || strEnds (lowerStr n) ".jpeg"
        || strEnds (lowerStr n) ".png" || strEnds (lowerStr n) ".bmp"
        || strEnds (lowerStr n) ".webp") = false →
      strIncludes t "presentation" = true →
      strEnds (lowerStr n) ".xlsx" = true →
      getFileType t n = FileType.excel) := by
  refine ⟨?_, ?_, ?_, ?_⟩
  · intro t n
    cases getFileType t n <;> simp
  · intro t n ht
    simp [getFileType, ht]
  · intro t n h1 h2 h3 h4 h5
    simp only [getFileType, if_neg h1, h2, h3, h4, h5, Bool.false_eq_true, if_false]
    split_ifs <;> rfl
  · intro t n h1 h2 h3 h4
    simp [getFileType, h1, h2, h4]

/-- Claim C3 counterexample: a file named `deck.xlsx` declared with the
PowerPoint presentation media type. Under the spec's stated decision order
(media type first) it would classify as a slide deck; `getFileType`
classifies it as a spreadsheet, because the extension test for spreadsheets
runs before the presentation media-type test. -/
theorem c3_counterexample :
    getFileType "application/vnd.openxmlformats-officedocument.presentationml.presentation"
        "deck.xlsx" = FileType.excel ∧
    specOrderFileType "application/vnd.openxmlformats-officedocument.presentationml.presentation"
        "deck.xlsx" = FileType.powerpoint ∧
    getFileType "application/vnd.openxmlformats-officedocument.presentationml.presentation"
        "deck.xlsx" ≠
      specOrderFileType "application/vnd.openxmlformats-officedocument.presentationml.presentation"
        "deck.xlsx" := by
  refine ⟨?_, ?_, ?_⟩ <;> decide

theorem c3_witness :
    getFileType "application/pdf" "weird.xlsx" = FileType.pdf ∧
    getFileType "application/octet-stream" "data.bin" = FileType.text ∧
    getFileType "application/vnd.ms-powerpoint.presentation" "table.xlsx" = FileType.excel := by
  refine ⟨c3_classifier.2.1 "application/pdf" "weird.xlsx" rfl,
    c3_classifier.2.2.1 "application/octet-stream" "data.bin" (by decide) (by decide)
      (by decide) (by decide) (by decide),
    c3_classifier.2.2.2 "application/vnd.ms-powerpoint.presentation" "table.xlsx" (by decide)
      (by decide) (by decide) (by decide)⟩

/-- Claim C2 (amended): wrapping an extractor's output into a
`DocumentRecord` performs no header-count validation at all — for any PDF
capability output it succeeds and stores the produced text and unit count
as-is, with no relation between the two enforced. -/
theorem c2_construction_no_validation :
    ∀ (f : FileMeta) (caps : Caps) (ps : List (List PdfItem)),
      getFileType f.mimeType f.name = FileType.pdf →
      caps.pdfPages = some ps →
      extractTextFromDocument f caps =
        Except.ok { name := f.name, text := (extractFromPDF ps).1,
                    pageCount := (extractFromPDF ps).2, fileType := FileType.pdf,
                    base64Data := none, mimeType := f.mimeType } := by
  intro f caps ps hft hcaps
  unfold extractTextFromDocument
  rw [hft, hcaps]
  rfl

/-- Claim C2 counterexample: a decoder-delivered page whose text contains a
header literal produces a document whose `pageCount` is 1 while the text
holds two header tokens; construction nevertheless succeeds, so it does not
fail on a count/header mismatch. -/
theorem c2_counterexample :
    extractTextFromDocument ⟨"a.pdf", "application/pdf", ""⟩
        ⟨some [[⟨"--- Page 1 ---", false⟩]], none, none, none, none, none⟩ =
      Except.ok { name := "a.pdf", text := "--- Page 1 ---\n--- Page 1 --- \n\n",
                  pageCount := 1, fileType := FileType.pdf, base64Data := none,
                  mimeType := "application/pdf" } ∧
    headerScan ["Page"]
        ("--- Page 1 ---\n--- Page 1 --- \n\n" : String).data ≠ List.range' 1 1 := by
  constructor <;> decide

theorem c2_witness :
    extractTextFromDocument ⟨"b.pdf", "application/pdf", ""⟩
        ⟨some [[⟨"hi", true⟩]], none, none, none, none, none⟩ =
      Except.ok { name := "b.pdf", text := (extractFromPDF [[⟨"hi", true⟩]]).1,
                  pageCount := (extractFromPDF [[⟨"hi", true⟩]]).2,
                  fileType := FileType.pdf, base64Data := none,
                  mimeType := "application/pdf" } :=
  c2_construction_no_validation ⟨"b.pdf", "application/pdf", ""⟩
    ⟨some [[⟨"hi", true⟩]], none, none, none, none, none⟩ [[⟨"hi", true⟩]]
    (by decide) rfl

/-- Claim C7 (amended): the visual payload stored in an image document
record is computed from the raw file bytes before the OCR step and its
value is independent of the OCR transcript; however, when the OCR step
fails, the whole extraction fails and no record — hence no visual payload
— is produced. -/
theorem c7_ocr_payload :
    (∀ (f : FileMeta) (caps : Caps) (t : String),
      getFileType f.mimeType f.name = FileType.image →
      caps.ocrText = some t →
      extractTextFromDocument f caps =
        Except.ok { name := f.name, text := "--- Image OCR Result ---\n" ++ t,
                    pageCount := 1, fileType := FileType.image,
                    base64Data := some f.b64, mimeType := f.mimeType }) ∧
    (∀ (f : FileMeta) (caps : Caps),
      getFileType f.mimeType f.name = FileType.image →
      caps.ocrText = none →
      extractTextFromDocument f caps = Except.error "OCR failed") := by
  constructor
  · intro f caps t hft hocr
    unfold extractTextFromDocument
    rw [hft, hocr]
    rfl
  · intro f caps hft hocr
    unfold extractTextFromDocument
    rw [hft, hocr]

/-- Claim C7 counterexample: an image file whose base64 payload is
available but whose OCR step fails: extraction rejects, so the visual
payload is not delivered in any document record — OCR failure does block
payload production. -/
theorem c7_counterexample :
    extractTextFromDocument ⟨"pic.png", "image/png", "QUJD"⟩
        ⟨none, none, none, none, none, none⟩ = Except.error "OCR failed" := by
  decide

theorem c7_witness :
    extractTextFromDocument ⟨"pic2.png", "image/png", "QUJD"⟩
        ⟨none, none, none, none, some "scanned words", none⟩ =
      Except.ok { name := "pic2.png", text := "--- Image OCR Result ---\n" ++ "scanned words",
                  pageCount := 1, fileType := FileType.image,
                  base64Data := some "QUJD", mimeType := "image/png" } :=
  c7_ocr_payload.1 ⟨"pic2.png", "image/png", "QUJD"⟩
    ⟨none, none, none, none, some "scanned words", none⟩ "scanned words" (by decide) rfl

/-! ## Lemmas: the citation scanner -/

theorem matchCI_sound : ∀ ks cs o r, matchCI ks cs = some (o, r) →
    cs = o ++ r ∧ o.length = ks.length := by
  intro ks
  induction ks with
  | nil =>
    intro cs o r h
    simp [matchCI] at h
    simp [h.1, h.2]
  | cons k ks ih =>
    intro cs o r h
    cases cs with
    | nil => simp [matchCI] at h
    | cons c cs =>
      simp only [matchCI] at h
      split at h
      · cases hm : matchCI ks cs with
        | none => rw [hm] at h; simp at h
        | some p =>
          rw [hm] at h
          cases p with
          | mk o1 r1 =>
            simp only [Option.map_some', Option.some.injEq, Prod.mk.injEq] at h
            obtain ⟨ho, hr⟩ := h
            obtain ⟨hcs, hlen⟩ := ih cs o1 r1 hm
            subst hcs
            simp [← ho, ← hr, hlen]
      · simp at h

theorem matchCI_restore : ∀ ks cs o r, matchCI ks cs = some (o, r) →
    ∀ t, matchCI ks (o ++ t) = some (o, t) := by
  intro ks
  induction ks with
  | nil =>
    intro cs o r h t
    simp [matchCI] at h
    simp [h.1, matchCI]
  | cons k ks ih =>
    intro cs o r h t
    cases cs with
    | nil => simp [matchCI] at h
    | cons c cs =>
      simp only [matchCI] at h
      split at h
      · cases hm : matchCI ks cs with
        | none => rw [hm] at h; simp at h
        | some p =>
          rw [hm] at h
          cases p with
          | mk o1 r1 =>
            simp only [Option.map_some', Option.some.injEq, Prod.mk.injEq] at h
            obtain ⟨ho, _⟩ := h
            subst ho
            simp only [List.cons_append, matchCI, List.append_eq]
            rw [if_pos (by assumption)]
            rw [ih cs o1 r1 hm t]
            rfl
      · simp at h

theorem matchCI_none_trans : ∀ ks xs r, matchCI ks (xs ++ r) = none →
    ks.length ≤ xs.length → ∀ t, matchCI ks (xs ++ t) = none := by
  intro ks
  induction ks with
  | nil => intro xs r h; simp [matchCI] at h
  | cons k ks ih =>
    intro xs r h hlen t
    cases xs with
    | nil => simp at hlen
    | cons c xs =>
      simp only [List.cons_append, matchCI, List.append_eq] at h ⊢
      split at h
      · cases hm : matchCI ks (xs ++ r) with
        | some p => rw [hm] at h; simp at h
        | none =>
          rw [if_pos (by assumption)]
          rw [ih xs r hm (by simpa using hlen) t]
          rfl
      · rw [if_neg (by assumption)]

theorem matchUnitWord_sound {cs o r : List Char} (h : matchUnitWord cs = some (o, r)) :
    cs = o ++ r ∧ 4 ≤ o.length ∧ o.length ≤ 5 := by
  unfold matchUnitWord at h
  cases h1 : matchCI "page".data cs with
  | some p =>
    rw [h1] at h
    cases p; cases h
    obtain ⟨hc, hl⟩ := matchCI_sound _ _ _ _ h1
    exact ⟨hc, by simp_all, by simp_all⟩
  | none =>
    rw [h1] at h
    cases h2 : matchCI "slide".data cs with
    | some p =>
      rw [h2] at h
      cases p; cases h
      obtain ⟨hc, hl⟩ := matchCI_sound _ _ _ _ h2
      exact ⟨hc, by simp_all, by simp_all⟩
    | none =>
      rw [h2] at h
      obtain ⟨hc, hl⟩ := matchCI_sound _ _ _ _ h
      exact ⟨hc, by simp_all, by simp_all⟩

theorem matchUnitWord_restore {cs o r : List Char} (h : matchUnitWord cs = some (o, r)) :
    ∀ t, matchUnitWord (o ++ t) = some (o, t) := by
  intro t
  have hs := matchUnitWord_sound h
  unfold matchUnitWord at h ⊢
  cases h1 : matchCI "page".data cs with
  | some p =>
    rw [h1] at h
    cases p; cases h
    rw [matchCI_restore _ _ _ _ h1 t]
  | none =>
    rw [h1] at h
    have hp : matchCI "page".data (o ++ t) = none := by
      rw [hs.1] at h1
      exact matchCI_none_trans _ _ _ h1 (by have := hs.2.1; simpa using this) t
    rw [hp]
    cases h2 : matchCI "slide".data cs with
    | some p =>
      rw [h2] at h
      cases p; cases h
      rw [matchCI_restore _ _ _ _ h2 t]
    | none =>
      rw [h2] at h
      have hsl : matchCI "slide".data (o ++ t) = none := by
        have ho5 : o.length = 5 := by
          obtain ⟨-, hl⟩ := matchCI_sound _ _ _ _ h
          simpa using hl
        rw [hs.1] at h2
        exact matchCI_none_trans _ _ _ h2 (by simp [ho5]) t
      rw [hsl]
      exact matchCI_restore _ _ _ _ h t

theorem digit_not_jsSpace {c : Char} (h : isDigitChar c = true) : isJsSpace c = false := by
  simp only [isDigitChar, Bool.and_eq_true, decide_eq_true_eq] at h
  simp only [isJsSpace]
  simp only [Bool.or_eq_false_iff, decide_eq_false_iff_not]
  omega

/-- Inversion of a successful citation parse: the matched pieces and the
facts needed to re-parse and to reassemble the input. -/
theorem parseCite_inv {cs : List Char} {l : String} {n : Nat} {r : List Char}
    (h : parseCite cs = some (l, n, r)) :
    ∃ kw ws ds,
      cs = '[' :: (kw ++ (ws ++ (ds ++ ']' :: r))) ∧
      l = String.mk ('[' :: (kw ++ ws ++ ds ++ [']'])) ∧
      n = digitsVal ds ∧
      (∀ t, matchUnitWord (kw ++ t) = some (kw, t)) ∧
      (∀ c ∈ ws, isJsSpace c = true) ∧ ws ≠ [] ∧
      (∀ c ∈ ds, isDigitChar c = true) ∧ ds ≠ [] := by
  cases cs with
  | nil => simp [parseCite] at h
  | cons c0 r1 =>
    unfold parseCite at h
    simp only [] at h
    split at h
    case isFalse => simp at h
    case isTrue hbr =>
    subst hbr
    cases hm : matchUnitWord r1 with
    | none => rw [hm] at h; simp at h
    | some p =>
      rw [hm] at h
      cases p with
      | mk kw r2 =>
        simp only [] at h
        split at h
        case isTrue => simp at h
        case isFalse hws =>
          split at h
          case isTrue => simp at h
          case isFalse hds =>
            split at h
            case _ r5 heq =>
              simp only [Option.some.injEq, Prod.mk.injEq] at h
              obtain ⟨hl, hn, hr⟩ := h
              subst hr
              refine ⟨kw, r2.takeWhile isJsSpace, (r2.dropWhile isJsSpace).takeWhile isDigitChar,
                ?_, ?_, hn.symm, matchUnitWord_restore hm, ?_, ?_, ?_, ?_⟩
              · congr 1
                rw [(matchUnitWord_sound hm).1]
                congr 1
                conv_lhs => rw [← List.takeWhile_append_dropWhile (p := isJsSpace) (l := r2)]
                congr 1
                conv_lhs =>
                  rw [← List.takeWhile_append_dropWhile (p := isDigitChar)
                    (l := r2.dropWhile isJsSpace)]
                rw [heq]
              · rw [← hl]
              · intro c hc; exact List.mem_takeWhile_imp hc
              · simpa using hws
              · intro c hc; exact List.mem_takeWhile_imp hc
              · simpa using hds
            case _ => simp at h


theorem parseCite_sound {cs : List Char} {l : String} {n : Nat} {r : List Char}
    (h : parseCite cs = some (l, n, r)) : l.data ++ r = cs ∧ l.data ≠ [] := by
  obtain ⟨kw, ws, ds, hcs, hl, -, -, -, -, -, -⟩ := parseCite_inv h
  subst hcs hl
  constructor
  · simp
  · simp

theorem parseCite_lt {cs : List Char} {l : String} {n : Nat} {r : List Char}
    (h : parseCite cs = some (l, n, r)) : r.length < cs.length := by
  obtain ⟨happ, hne⟩ := parseCite_sound h
  rw [← happ]
  simp
  exact List.length_pos.mpr hne

/-- A matched citation literal re-parses to itself, its unit index, and an
empty remainder. -/
theorem parseCite_reparse {cs : List Char} {l : String} {n : Nat} {r : List Char}
    (h : parseCite cs = some (l, n, r)) : parseCite l.data = some (l, n, []) := by
  obtain ⟨kw, ws, ds, hcs, hl, hn, hmu, hws, hwsne, hds, hdsne⟩ := parseCite_inv h
  obtain ⟨d, ds', rfl⟩ : ∃ d ds', ds = d :: ds' := by
    cases ds with
    | nil => exact absurd rfl hdsne
    | cons d ds' => exact ⟨d, ds', rfl⟩
  have hldata : l.data = '[' :: (kw ++ (ws ++ ((d :: ds') ++ [']']))) := by
    rw [hl]
    simp
  rw [hldata]
  unfold parseCite
  simp only [if_true]
  rw [hmu (ws ++ ((d :: ds') ++ [']']))]
  simp only []
  have htakeWs : (ws ++ ((d :: ds') ++ [']'])).takeWhile isJsSpace = ws :=
    takeWhile_all_head _ _ _ hws (digit_not_jsSpace (hds d (by simp)))
  have hdropWs : (ws ++ ((d :: ds') ++ [']'])).dropWhile isJsSpace = (d :: ds') ++ [']'] :=
    dropWhile_all_head _ _ _ hws (digit_not_jsSpace (hds d (by simp)))
  rw [htakeWs, hdropWs]
  rw [if_neg (by simpa using hwsne)]
  have htakeDs : ((d :: ds') ++ [']']).takeWhile isDigitChar = d :: ds' :=
    takeWhile_all_head _ _ _ hds (by decide)
  have hdropDs : ((d :: ds') ++ [']']).dropWhile isDigitChar = [']'] :=
    dropWhile_all_head _ _ _ hds (by decide)
  rw [htakeDs, hdropDs]
  rw [if_neg (by simp)]
  simp only [Option.some.injEq, Prod.mk.injEq]
  refine ⟨?_, hn.symm, trivial⟩
  rw [hl]

theorem parseCite_not_bracket {c : Char} (hc : c ≠ '[') (cs : List Char) :
    parseCite (c :: cs) = none := by
  unfold parseCite
  simp only []
  rw [if_neg hc]

theorem citeScanF_mono :
    ∀ f g pend cs, cs.length ≤ f → cs.length ≤ g →
      citeScanF f pend cs = citeScanF g pend cs := by
  intro f
  induction f with
  | zero =>
    intro g pend cs hf _
    have : cs = [] := List.length_eq_zero.mp (Nat.le_zero.mp hf)
    subst this
    cases g <;> rfl
  | succ f ih =>
    intro g pend cs hf hg
    cases cs with
    | nil => cases g <;> rfl
    | cons c cs =>
      cases g with
      | zero => simp at hg
      | succ g =>
        have hf' : cs.length + 1 ≤ f + 1 := by simpa using hf
        have hg' : cs.length + 1 ≤ g + 1 := by simpa using hg
        simp only [citeScanF]
        cases hp : parseCite (c :: cs) with
        | none => exact ih g (c :: pend) cs (by omega) (by omega)
        | some p =>
          obtain ⟨l, n, rest⟩ := p
          have hlt : rest.length < cs.length + 1 := by simpa using parseCite_lt hp
          simp only []
          rw [ih g [] rest (by omega) (by omega)]

theorem citeScanAux_cons (pend : List Char) (c : Char) (cs : List Char) :
    citeScanAux pend (c :: cs) =
      match parseCite (c :: cs) with
      | some (l, n, rest) =>
        flushPend pend ++ RenderPart.cite l n :: citeScanAux [] rest
      | none => citeScanAux (c :: pend) cs := by
  unfold citeScanAux
  simp only [List.length_cons, citeScanF]
  cases hp : parseCite (c :: cs) with
  | none => rfl
  | some p =>
    obtain ⟨l, n, rest⟩ := p
    have hlt : rest.length < cs.length + 1 := by simpa using parseCite_lt hp
    simp only []
    rw [citeScanF_mono cs.length rest.length [] rest (by omega) le_rfl]

theorem flatParts_append : ∀ xs ys, flatParts (xs ++ ys) = flatParts xs ++ flatParts ys := by
  intro xs
  induction xs with
  | nil =>
    intro ys
    show flatParts ys = "" ++ flatParts ys
    apply String.ext
    simp [String.data_append]
  | cons x xs ih =>
    intro ys
    cases x <;> simp [flatParts, ih, String.append_assoc]

theorem flatParts_flushPend (pend : List Char) :
    (flatParts (flushPend pend)).data = pend.reverse := by
  unfold flushPend
  by_cases hp : pend.isEmpty
  · rw [if_pos hp]
    have : pend = [] := by simpa [List.isEmpty_iff] using hp
    subst this
    rfl
  · rw [if_neg hp]
    show (String.mk pend.reverse ++ flatParts []).data = pend.reverse
    rw [String.data_append]
    simp [flatParts]

theorem citeScanAux_flat :
    ∀ N cs, cs.length ≤ N → ∀ pend,
      (flatParts (citeScanAux pend cs)).data = pend.reverse ++ cs := by
  intro N
  induction N with
  | zero =>
    intro cs hlen pend
    have : cs = [] := List.length_eq_zero.mp (Nat.le_zero.mp hlen)
    subst this
    simpa using flatParts_flushPend pend
  | succ N ih =>
    intro cs hlen pend
    cases cs with
    | nil => simpa using flatParts_flushPend pend
    | cons c cs =>
      rw [citeScanAux_cons]
      cases hp : parseCite (c :: cs) with
      | none =>
        simp only []
        rw [ih cs (by simpa using hlen) (c :: pend)]
        simp
      | some p =>
        obtain ⟨l, n, rest⟩ := p
        have hlt : rest.length < cs.length + 1 := by simpa using parseCite_lt hp
        simp only []
        rw [flatParts_append, String.data_append]
        rw [flatParts_flushPend]
        show pend.reverse ++ (l ++ flatParts (citeScanAux [] rest)).data = _
        rw [String.data_append, ih rest (by simp at hlen; omega) []]
        rw [List.reverse_nil, List.nil_append]
        rw [(parseCite_sound hp).1]

theorem citeScanAux_cites :
    ∀ N cs, cs.length ≤ N → ∀ pend l n, RenderPart.cite l n ∈ citeScanAux pend cs →
      parseCite l.data = some (l, n, []) := by
  intro N
  induction N with
  | zero =>
    intro cs hlen pend l n hmem
    have : cs = [] := List.length_eq_zero.mp (Nat.le_zero.mp hlen)
    subst this
    unfold citeScanAux citeScanF flushPend at hmem
    split at hmem <;> simp_all
  | succ N ih =>
    intro cs hlen pend l n hmem
    cases cs with
    | nil =>
      unfold citeScanAux citeScanF flushPend at hmem
      split at hmem <;> simp_all
    | cons c cs =>
      rw [citeScanAux_cons] at hmem
      cases hp : parseCite (c :: cs) with
      | none =>
        rw [hp] at hmem
        exact ih cs (by simpa using hlen) (c :: pend) l n hmem
      | some p =>
        obtain ⟨l0, n0, rest⟩ := p
        have hlt : rest.length < cs.length + 1 := by simpa using parseCite_lt hp
        rw [hp] at hmem
        simp only [List.mem_append, List.mem_cons] at hmem
        rcases hmem with hmem | hmem | hmem
        · unfold flushPend at hmem
          split at hmem <;> simp_all
        · obtain ⟨rfl, rfl⟩ : l = l0 ∧ n = n0 := by
            have := hmem
            simp [RenderPart.cite.injEq] at this
            exact this
          exact parseCite_reparse hp
        · exact ih rest (by simp at hlen; omega) [] l n hmem

theorem citeScanAux_no_bracket :
    ∀ cs pend, '[' ∉ cs → citeScanAux pend cs = flushPend (cs.reverse ++ pend) := by
  intro cs
  induction cs with
  | nil => intro pend _; rfl
  | cons c cs ih =>
    intro pend hnb
    rw [citeScanAux_cons, parseCite_not_bracket (fun h => hnb (by simp [h])) cs]
    rw [ih (c :: pend) (fun h => hnb (by simp [h]))]
    simp

/-- Claim C4: the citation scan is a single left-to-right pass whose output
concatenates back to the input (spans contribute their text and citations
their matched literal); every emitted citation carries exactly the integer
parsed back from its own literal; the spec's example input yields citations
3 and 12 with the surrounding literals preserved verbatim; and a nonempty
input without brackets comes back as one plain span. -/
theorem c4_citation_scan :
    (∀ s : String, flatParts (citeScan s) = s) ∧
    (∀ (s l : String) (n : Nat), RenderPart.cite l n ∈ citeScan s →
      parseCite l.data = some (l, n, [])) ∧
    citeScan "See [Page 3] and [Slide 12] for details." =
      [RenderPart.text "See ", RenderPart.cite "[Page 3]" 3, RenderPart.text " and ",
       RenderPart.cite "[Slide 12]" 12, RenderPart.text " for details."] ∧
    (∀ s : String, s ≠ "" → '[' ∉ s.data → citeScan s = [RenderPart.text s]) := by
  refine ⟨?_, ?_, ?_, ?_⟩
  · intro s
    simp only [citeScan]
    by_cases hps : (citeScanAux [] s.data).isEmpty
    · rw [if_pos hps]
      apply String.ext
      show ("" ++ (s ++ flatParts [])).data = s.data
      simp [String.data_append, flatParts]
    · rw [if_neg hps]
      apply String.ext
      rw [citeScanAux_flat s.data.length s.data le_rfl []]
      simp
  · intro s l n hmem
    simp only [citeScan] at hmem
    by_cases hps : (citeScanAux [] s.data).isEmpty
    · rw [if_pos hps] at hmem
      simp at hmem
    · rw [if_neg hps] at hmem
      exact citeScanAux_cites s.data.length s.data le_rfl [] l n hmem
  · decide
  · intro s hne hnb
    have hdata : s.data ≠ [] := fun h => hne (String.ext h)
    simp only [citeScan]
    rw [citeScanAux_no_bracket s.data [] hnb]
    have hrev : s.data.reverse ++ [] = s.data.reverse := by simp
    rw [hrev]
    unfold flushPend
    rw [if_neg (by simpa using hdata)]
    have : String.mk s.data.reverse.reverse = s := by
      cases s
      simp
    rw [this]
    rw [if_neg (by simpa using hdata)]

theorem c4_witness :
    flatParts (citeScan "go [Sheet 2] now") = "go [Sheet 2] now" ∧
    citeScan "plain text" = [RenderPart.text "plain text"] :=
  ⟨c4_citation_scan.1 "go [Sheet 2] now",
   c4_citation_scan.2.2.2 "plain text" (by decide) (by decide)⟩

/-! ## Lemmas: PCM decoding and playback -/

theorem toInt16_bounds {lo hi : Nat} (hlo : lo < 256) (hhi : hi < 256) :
    -32768 ≤ toInt16 lo hi ∧ toInt16 lo hi ≤ 32767 := by
  unfold toInt16
  dsimp only
  split <;> constructor <;> omega

theorem bytesToI16_odd : ∀ bytes : List Nat, bytes.length % 2 = 1 → bytesToI16 bytes = none
  | [], h => by simp at h
  | [_], _ => rfl
  | lo :: hi :: rest, h => by
    have hr : rest.length % 2 = 1 := by
      simp only [List.length_cons] at h
      omega
    simp [bytesToI16, bytesToI16_odd rest hr]

theorem bytesToI16_even :
    ∀ (N : Nat) (bytes : List Nat), bytes.length = 2 * N → (∀ b ∈ bytes, b < 256) →
      ∃ l, bytesToI16 bytes = some l ∧ l.length = N ∧
        ∀ k ∈ l, -32768 ≤ k ∧ k ≤ 32767 := by
  intro N
  induction N with
  | zero =>
    intro bytes hlen _
    have : bytes = [] := List.length_eq_zero.mp (by omega)
    subst this
    exact ⟨[], rfl, rfl, by simp⟩
  | succ N ih =>
    intro bytes hlen hb
    cases bytes with
    | nil => simp only [List.length_nil] at hlen; omega
    | cons lo rest0 =>
      cases rest0 with
      | nil => simp only [List.length_cons, List.length_nil] at hlen; omega
      | cons hi rest =>
        have hrest : rest.length = 2 * N := by
          simp only [List.length_cons] at hlen
          omega
        obtain ⟨l, hl1, hl2, hl3⟩ := ih rest hrest
          (fun b hbm => hb b (by simp [hbm]))
        refine ⟨toInt16 lo hi :: l, ?_, by simp [hl2], ?_⟩
        · simp [bytesToI16, hl1]
        · intro k hk
          rcases List.mem_cons.mp hk with rfl | hk
          · exact toInt16_bounds (hb lo (by simp)) (hb hi (by simp))
          · exact hl3 k hk

theorem sample_bounds {k : Int} (h1 : -32768 ≤ k) (h2 : k ≤ 32767) :
    -1 ≤ (k : ℚ) / 32768 ∧ (k : ℚ) / 32768 ≤ 1 := by
  constructor
  · rw [le_div_iff₀ (by norm_num : (0 : ℚ) < 32768)]
    have : (-32768 : ℚ) ≤ (k : ℚ) := by exact_mod_cast h1
    linarith
  · rw [div_le_one (by norm_num : (0 : ℚ) < 32768)]
    have : (k : ℚ) ≤ 32767 := by exact_mod_cast h2
    linarith

theorem bytesToI16_zeros : ∀ N, bytesToI16 (List.replicate (2 * N) 0) = some (List.replicate N 0) := by
  intro N
  induction N with
  | zero => rfl
  | succ N ih =>
    have h2 : 2 * (N + 1) = (2 * N + 1) + 1 := by ring
    rw [h2, List.replicate_succ, List.replicate_succ]
    show bytesToI16 (0 :: 0 :: List.replicate (2 * N) 0) = _
    simp [bytesToI16, ih, List.replicate_succ, show toInt16 0 0 = 0 from rfl]

/-- Claim C8 (amended): a 16-bit PCM payload of `2 * N` bytes with `N ≥ 1`
decodes to exactly `N` samples, each equal to its little-endian signed
16-bit value divided by 32768 and hence inside `[-1, 1]`; the all-zero
payload of that length decodes to `N` zero samples. (`N = 0` is excluded:
`createBuffer` with zero frames throws.) -/
theorem c8_pcm_decode :
    (∀ (bytes : List Nat) (N : Nat), bytes.length = 2 * N → 1 ≤ N →
      (∀ b ∈ bytes, b < 256) →
      ∃ samples, decodeAudioData bytes = some samples ∧ samples.length = N ∧
        ∀ q ∈ samples, -1 ≤ q ∧ q ≤ 1) ∧
    (∀ N, 1 ≤ N → decodeAudioData (List.replicate (2 * N) 0) = some (List.replicate N 0)) := by
  constructor
  · intro bytes N hlen hN hb
    obtain ⟨l, hl1, hl2, hl3⟩ := bytesToI16_even N bytes hlen hb
    cases l with
    | nil => simp at hl2; omega
    | cons k ks =>
      refine ⟨(k :: ks).map fun (v : Int) => (v : ℚ) / 32768, ?_, by simpa using hl2, ?_⟩
      · unfold decodeAudioData
        rw [hl1]
      · intro q hq
        obtain ⟨v, hv, rfl⟩ := List.mem_map.mp hq
        exact sample_bounds (hl3 v hv).1 (hl3 v hv).2
  · intro N hN
    unfold decodeAudioData
    rw [bytesToI16_zeros N]
    cases N with
    | zero => omega
    | succ M =>
      rw [List.replicate_succ]
      simp only [List.map_cons, List.map_replicate]
      norm_num
      exact (List.replicate_succ (0 : ℚ) M).symm

/-- Claim C8 counterexample: the empty payload has exactly `2 * 0` bytes,
but the decoder throws (zero-frame `createBuffer`) instead of producing an
empty sample buffer. -/
theorem c8_counterexample :
    ([] : List Nat).length = 2 * 0 ∧ decodeAudioData [] = none :=
  ⟨rfl, rfl⟩

theorem c8_witness :
    (∃ samples, decodeAudioData [0, 128] = some samples ∧ samples.length = 1 ∧
      ∀ q ∈ samples, -1 ≤ q ∧ q ≤ 1) ∧
    decodeAudioData (List.replicate (2 * 3) 0) = some (List.replicate 3 0) :=
  ⟨c8_pcm_decode.1 [0, 128] 1 rfl le_rfl (by decide), c8_pcm_decode.2 3 (by decide)⟩

/-- Claim C9 (amended): in the guarded (second) `AudioService`, after
`play()` is called twice in succession exactly one playback is active (the
second source), and whatever order the platform fires the two sources'
`ended` events in, only the second call's completion callback is invoked,
exactly once; the superseded first callback never fires. (The unguarded
first `AudioService` violates this — see the counterexample.) -/
theorem c9_single_slot :
    (∀ rest, (rest = [AudioEv.ended 1, AudioEv.ended 2] ∨
        rest = [AudioEv.ended 2, AudioEv.ended 1]) →
      (runGuarded ([AudioEv.play 1, AudioEv.play 2] ++ rest)).invoked = [2]) ∧
    (runGuarded [AudioEv.play 1, AudioEv.play 2]).current = some 2 := by
  constructor
  · intro rest h
    rcases h with rfl | rfl <;> decide
  · decide

/-- Claim C9 counterexample: in the first (unguarded) `AudioService`,
stopping the superseded source still fires its `onended` handler, which
invokes the first call's completion callback — the invocation log is
`[1, 2]`, not `[2]`. -/
theorem c9_counterexample :
    (runUnguarded [AudioEv.play 1, AudioEv.play 2, AudioEv.ended 1,
        AudioEv.ended 2]).invoked = [1, 2] ∧
    1 ∈ (runUnguarded [AudioEv.play 1, AudioEv.play 2, AudioEv.ended 1,
        AudioEv.ended 2]).invoked := by
  constructor <;> decide

theorem c9_witness :
    (runGuarded ([AudioEv.play 1, AudioEv.play 2] ++
      [AudioEv.ended 1, AudioEv.ended 2])).invoked = [2] :=
  c9_single_slot.1 [AudioEv.ended 1, AudioEv.ended 2] (Or.inl rfl)

/-- Claim C10: a base64 payload whose decoded byte count is odd never
starts a PCM playback — the `Int16Array` reinterpretation fails, the error
is absorbed, and `play()` falls back to platform speech when (truthy)
source text is given, or signals completion immediately when it is not. -/
theorem c10_odd_payload :
    ∀ (s : String) (bytes : List Nat), b64decode s = some bytes →
      bytes.length % 2 = 1 →
      decodeAudioData bytes = none ∧
      (∀ samples, playAction (some s) none ≠ PlayAction.startBuffer samples) ∧
      (∀ t : String, t ≠ "" → playAction (some s) (some t) = PlayAction.speakText t) ∧
      playAction (some s) none = PlayAction.signalEnd := by
  intro s bytes hdec hodd
  have hdecAudio : decodeAudioData bytes = none := by
    unfold decodeAudioData
    rw [bytesToI16_odd bytes hodd]
  have hsne : s ≠ "" := by
    rintro rfl
    have h0 : (some ([] : List Nat) : Option (List Nat)) = some bytes := hdec
    have hnil : bytes = [] := (Option.some.inj h0).symm
    rw [hnil] at hodd
    simp at hodd
  have hplay : ∀ t, playAction (some s) t = fallbackAction t := by
    intro t
    unfold playAction
    simp only []
    rw [if_neg hsne, hdec]
    simp only []
    rw [hdecAudio]
  refine ⟨hdecAudio, ?_, ?_, ?_⟩
  · intro samples
    rw [hplay none]
    simp [fallbackAction]
  · intro t ht
    rw [hplay (some t)]
    simp [fallbackAction, ht]
  · rw [hplay none]
    rfl

theorem c10_witness :
    b64decode "AA==" = some [0] ∧ decodeAudioData [0] = none ∧
    playAction (some "AA==") (some "hi") = PlayAction.speakText "hi" ∧
    playAction (some "AA==") none = PlayAction.signalEnd := by
  have h := c10_odd_payload "AA==" [0] (by decide) (by decide)
  exact ⟨by decide, h.1, h.2.2.1 "hi" (by decide), h.2.2.2⟩

end DocPipe
